import Mathlib

/-!
Verification of the RandBLAS core (dense and sparse sketching operators)
against its natural-language specification.

The C++ sources are shallowly embedded: machine integers become `Nat`
(all quantities involved are nonnegative), buffers become `List`s, the
counter-based generator becomes an arbitrary function argument
`gen : Nat → Nat → Nat → α` (counter, key, word index ↦ word), and
fallible routines return `Option`.
-/

namespace RandBLAS

/-- Model of `RandBLAS::base::RNGState`: a counter and a key.  The
multi-limb counter is abstracted to `Nat`; `incr n` is addition. -/
structure RNGStateM where
  ctr : Nat
  key : Nat
deriving DecidableEq, Repr, Inhabited

/-- Model of `blas::Layout`. -/
inductive Layout where
  | RowMajor : Layout
  | ColMajor : Layout
deriving DecidableEq, Repr

/-- Model of `blas::Op`. -/
inductive Op where
  | NoTrans : Op
  | Trans : Op
deriving DecidableEq, Repr

/-- Model of `RandBLAS::dense::DenseDistName`. -/
inductive DenseDistName where
  | Gaussian : DenseDistName
  | Uniform : DenseDistName
  | BlackBox : DenseDistName
deriving DecidableEq, Repr

/-- Model of `RandBLAS::dense::MajorAxis`. -/
inductive MajorAxis where
  | Short : MajorAxis
  | Long : MajorAxis
deriving DecidableEq, Repr

/-- Model of `RandBLAS::dense::DenseDist`. -/
structure DenseDist where
  n_rows : Nat
  n_cols : Nat
  family : DenseDistName
  major_axis : MajorAxis
deriving DecidableEq, Repr

/-- `dist_to_layout` from `dense.hh`. -/
def dist_to_layout (D : DenseDist) : Layout :=
  let is_wide := D.n_rows < D.n_cols
  let fa_long := D.major_axis = MajorAxis.Long
  if is_wide ∧ fa_long then Layout.RowMajor
  else if is_wide then Layout.ColMajor
  else if fa_long then Layout.ColMajor
  else Layout.RowMajor

section DenseFill

variable {α : Type}

/-- One generator block: the `W` words of `OP::generate` at counter `b`
with key `k` (`rv[0] … rv[W-1]` in the source). -/
def genBlock (W : Nat) (gen : Nat → Nat → Nat → α) (k b : Nat) : List α :=
  (List.range W).map (fun i => gen b k i)

/-- `m` consecutive full generator blocks at counters `b, b+1, …, b+m-1`:
the values written by the `middle` while-loop of `fill_rsubmat_omp`. -/
def genBlocks (W : Nat) (gen : Nat → Nat → Nat → α) (k : Nat) : Nat → Nat → List α
  | _, 0 => []
  | b, m + 1 => genBlock W gen k b ++ genBlocks W gen k (b + 1) m

/-- The values one iteration of the row loop of `fill_rsubmat_omp` writes
into its row of `smat`, when the worker's counter at the start block is
`base`.  `i0` is the row's start index in the parent stream and `n_scols`
the row length; the three appended pieces are the partial start block
(`i = s0 … range`), the full middle blocks, and the partial end block. -/
def rowPieces (W : Nat) (gen : Nat → Nat → Nat → α) (k base i0 n_scols : Nat) : List α :=
  let i1 := i0 + n_scols - 1
  let r0 := i0 / W
  let r1 := i1 / W
  let s0 := i0 % W
  let e1 := i1 % W
  let rnge := if r0 < r1 then W - 1 else e1
  ((List.range' s0 (rnge + 1 - s0)).map (fun i => gen base k i))
    ++ genBlocks W gen k (base + 1) (r1 - (r0 + 1))
    ++ (if r0 < r1 then (List.range (e1 + 1)).map (fun i => gen (base + (r1 - r0)) k i) else [])

/-- The sequence of values one OpenMP worker of `fill_rsubmat_omp` computes
for its assigned list of rows.  The worker state is the pair `(cc, prev)`:
the firstprivate counter copy and the last absolute block index; each row
advances `cc` by `r0 - prev` before generating. -/
def worker (W : Nat) (gen : Nat → Nat → Nat → α) (k n_cols n_scols ptr : Nat) :
    Nat × Nat → List Nat → List α
  | _, [] => []
  | (cc, prev), row :: rest =>
      let i0 := ptr + row * n_cols
      let i1 := i0 + n_scols - 1
      let r0 := i0 / W
      let r1 := i1 / W
      let cc1 := cc + (r0 - prev)
      rowPieces W gen k cc1 i0 n_scols
        ++ worker W gen k n_cols n_scols ptr (cc1 + (r1 - r0), r1) rest

/-- The buffer contents written by `fill_rsubmat_omp` (dense.hh, lines
210-278): the row loop executed in order `0, 1, …, n_srows-1` starting
from the worker state `(seed.ctr, 0)`, each row written contiguously with
leading dimension `n_scols`. -/
def fill_rsubmat_omp (W : Nat) (gen : Nat → Nat → Nat → α) (n_cols : Nat)
    (n_srows n_scols ptr : Nat) (seed : RNGStateM) : List α :=
  worker W gen seed.key n_cols n_scols ptr (seed.ctr, 0) (List.range n_srows)

/-- The `RNGState<RNG> {c, k}` value returned by `fill_rsubmat_omp`
(dense.hh line 277).  `c` and `k` are the locals read from `seed` at entry
and never modified (only the OMP-private copy `cc` is advanced). -/
def fill_rsubmat_omp_ret (seed : RNGStateM) : RNGStateM :=
  ⟨seed.ctr, seed.key⟩

/-- Word `pos mod W` of the generator block at counter `c + pos / W`:
element `pos` of the implicit flat parent stream rooted at counter `c`. -/
def streamWord (W : Nat) (gen : Nat → Nat → Nat → α) (k c pos : Nat) : α :=
  gen (c + pos / W) k (pos % W)

/-- The canonical (order-independent) contents of a single row: the row
loop body at row `row`, with the counter derived absolutely as
`c + r0`. -/
def fillRow (W : Nat) (gen : Nat → Nat → Nat → α) (k c n_cols n_scols ptr row : Nat) : List α :=
  rowPieces W gen k (c + (ptr + row * n_cols) / W) (ptr + row * n_cols) n_scols

/-- `fill_rmat` (dense.hh lines 300-318): if the requested major axis is
not already contiguous, swap the two dimensions (the recursive call with
swapped arguments); then defer to the row-major filler over the whole
matrix with `ptr = 0`. -/
def fill_rmat (W : Nat) (gen : Nat → Nat → Nat → α) (n_rows n_cols : Nat)
    (seed : RNGStateM) (ma : MajorAxis) : List α :=
  if (ma = MajorAxis.Long ∧ n_cols < n_rows) ∨ (ma = MajorAxis.Short ∧ n_rows < n_cols) then
    fill_rsubmat_omp W gen n_rows n_cols n_rows 0 seed
  else
    fill_rsubmat_omp W gen n_cols n_rows n_cols 0 seed

/-- The state returned by `fill_rmat`: whatever `fill_rsubmat_omp`
returns. -/
def fill_rmat_ret (seed : RNGStateM) : RNGStateM :=
  fill_rsubmat_omp_ret seed

/-- `fill_buff` (dense.hh lines 320-338): dispatch on the family, using
the `boxmul` transform for Gaussian and `uneg11` for Uniform (both
abstracted as generator functions); BlackBox throws
`std::invalid_argument`, modelled as `none`.  Returns the buffer contents
together with the state `fill_rmat` returned. -/
def fill_buff (W : Nat) (gaussOp unifOp : Nat → Nat → Nat → α) (D : DenseDist)
    (state : RNGStateM) : Option (List α × RNGStateM) :=
  match D.family with
  | DenseDistName.Gaussian =>
      some (fill_rmat W gaussOp D.n_rows D.n_cols state D.major_axis, fill_rmat_ret state)
  | DenseDistName.Uniform =>
      some (fill_rmat W unifOp D.n_rows D.n_cols state D.major_axis, fill_rmat_ret state)
  | DenseDistName.BlackBox => none

/-- Model of `DenseSkOp` (dense.hh lines 94-159).  The buffer pointer is
`Option (List α)`; `none` models a null pointer. -/
structure DenseSkOp (α : Type) where
  dist : DenseDist
  seed_state : RNGStateM
  next_state : RNGStateM
  buff : Option (List α)
  layout : Layout
  del_buff_on_destruct : Bool
deriving DecidableEq, Repr

/-- The elementary `DenseSkOp` constructor (dense.hh lines 161-177): sets
`next_state{}` (zero-initialized), derives the layout from the
distribution, and checks positive dimensions plus, for BlackBox, a
non-null buffer; a failed `randblas_require` is `none`. -/
def mkDenseSkOp (dist : DenseDist) (state : RNGStateM)
    (buff : Option (List α)) : Option (DenseSkOp α) :=
  if 0 < dist.n_rows ∧ 0 < dist.n_cols
      ∧ (dist.family = DenseDistName.BlackBox → buff.isSome) then
    some { dist := dist, seed_state := state, next_state := ⟨0, 0⟩,
           buff := buff, layout := dist_to_layout dist, del_buff_on_destruct := false }
  else
    none

/-- `realize_full` (dense.hh lines 340-349): requires a null buffer,
allocates `n_rows * n_cols` entries, fills them with `fill_buff` from
`seed_state`, stores the state `fill_buff` returned into `next_state`,
and records the deletion flag. -/
def realize_full (W : Nat) (gaussOp unifOp : Nat → Nat → Nat → α)
    (S : DenseSkOp α) (del : Bool) : Option (DenseSkOp α) :=
  match S.buff with
  | some _ => none
  | none =>
      match fill_buff W gaussOp unifOp S.dist S.seed_state with
      | none => none
      | some (content, st) =>
          some { S with
                 buff := some content
                 next_state := st
                 del_buff_on_destruct := del }

/-- The effect of `lskge3` on the caller's operator `S0` (dense.hh lines
479-496): it constructs a shallow copy through the elementary
constructor; if `S0.buff` is null it calls `realize_full` on the copy and
assigns `S0.next_state = S0_shallow_copy.next_state` (line 494).  No
other field of `S0` is ever assigned; if the constructor or
`realize_full` throws, `S0` is left as it was. -/
def lskge3_S0_after (W : Nat) (gaussOp unifOp : Nat → Nat → Nat → α)
    (S0 : DenseSkOp α) : DenseSkOp α :=
  match mkDenseSkOp S0.dist S0.seed_state S0.buff with
  | none => S0
  | some copy =>
      match S0.buff with
      | some _ => S0
      | none =>
          match realize_full W gaussOp unifOp copy true with
          | none => S0
          | some copy2 => { S0 with next_state := copy2.next_state }

/-- The effect of `rskge3` on the caller's operator `S0` (dense.hh lines
674-690): the body reads `S0` but never assigns to any of its fields (the
realized shallow copy's state is not written back). -/
def rskge3_S0_after (S0 : DenseSkOp α) : DenseSkOp α :=
  S0

/-- Observables of the lazy-realization path of `lskge3` (dense.hh lines
483-496 and 515-533): the length of the buffer allocated by
`realize_full` on the shallow copy, the values written into it, the index
`pos` at which the single GEMM call reads the operator, and whether the
temporary is freed on return (the copy's `del_buff_on_destruct`).
`none` models a throw before GEMM. -/
structure LazyRealizeTrace (α : Type) where
  alloc_len : Nat
  content : List α
  gemm_offset : Nat
  freed_on_return : Bool
deriving DecidableEq, Repr

/-- The lazy-path trace of `lskge3`: only taken when `S0.buff` is null;
`realize_full` allocates `n_rows * n_cols` entries (line 346) and fills
the whole operator; `pos = i_os + lds·j_os` for a ColMajor operator with
`lds = n_rows`, else `pos = i_os·lds + j_os` with `lds = n_cols`
(lines 517-533). -/
def lskge3_lazy_trace (W : Nat) (gaussOp unifOp : Nat → Nat → Nat → α)
    (S0 : DenseSkOp α) (i_os j_os : Nat) : Option (LazyRealizeTrace α) :=
  match mkDenseSkOp S0.dist S0.seed_state S0.buff with
  | none => none
  | some copy =>
      match S0.buff with
      | some _ => none
      | none =>
          match realize_full W gaussOp unifOp copy true with
          | none => none
          | some copy2 =>
              match copy2.buff with
              | none => none
              | some content =>
                  some { alloc_len := S0.dist.n_rows * S0.dist.n_cols,
                         content := content,
                         gemm_offset :=
                           if S0.layout = Layout.ColMajor then
                             i_os + S0.dist.n_rows * j_os
                           else
                             i_os * S0.dist.n_cols + j_os,
                         freed_on_return := copy2.del_buff_on_destruct }

/-- The dimension- and stride-check section of `lskge3` (dense.hh lines
479-481 and 498-541), as a Bool: `true` iff every `randblas_require`
passes.  `i_os` and `j_os` are received but the checks never read them. -/
def lskge3_checks (S0dist : DenseDist) (S0layout layout : Layout)
    (transS0 transA : Op) (d n m : Nat) (i_os j_os : Nat) (lda ldb : Nat) : Bool :=
  let opposing := S0layout ≠ layout
  let transS := if opposing then
      (if transS0 = Op.NoTrans then Op.Trans else Op.NoTrans) else transS0
  let rows_A := if transA = Op.NoTrans then m else n
  let cols_A := if transA = Op.NoTrans then n else m
  let rows_submat_S := if transS = Op.NoTrans then d else m
  let cols_submat_S := if transS = Op.NoTrans then m else d
  let lds := if S0layout = Layout.ColMajor then S0dist.n_rows else S0dist.n_cols
  let check_s : Bool :=
    if S0layout = Layout.ColMajor then
      (if opposing then decide (cols_submat_S ≤ lds) else decide (rows_submat_S ≤ lds))
    else
      (if opposing then decide (rows_submat_S ≤ lds) else decide (cols_submat_S ≤ lds))
  let check_ab : Bool :=
    if layout = Layout.ColMajor then
      decide (rows_A ≤ lda) && decide (d ≤ ldb)
    else
      decide (cols_A ≤ lda) && decide (n ≤ ldb)
  check_s && check_ab

/-- The dimension- and stride-check section of `rskge3` (dense.hh lines
674-676 and 692-734), as a Bool: `true` iff every `randblas_require`
passes.  Unlike `lskge3`, the bounds on the operator involve the
submatrix offsets, with the row/column roles swapped when the layouts
oppose. -/
def rskge3_checks (S0dist : DenseDist) (S0layout layout : Layout)
    (transA transS0 : Op) (m d n : Nat) (i_os j_os : Nat) (lda ldb : Nat) : Bool :=
  let opposing := S0layout ≠ layout
  let transS := if opposing then
      (if transS0 = Op.NoTrans then Op.Trans else Op.NoTrans) else transS0
  let rows_A := if transA = Op.NoTrans then m else n
  let cols_A := if transA = Op.NoTrans then n else m
  let rows_submat_S := if transS = Op.NoTrans then n else d
  let cols_submat_S := if transS = Op.NoTrans then d else n
  let check_s : Bool :=
    if opposing then
      decide (cols_submat_S + i_os ≤ S0dist.n_rows)
        && decide (rows_submat_S + j_os ≤ S0dist.n_cols)
    else
      decide (rows_submat_S + i_os ≤ S0dist.n_rows)
        && decide (cols_submat_S + j_os ≤ S0dist.n_cols)
  let check_ab : Bool :=
    if layout = Layout.ColMajor then
      decide (rows_A ≤ lda) && decide (m ≤ ldb)
    else
      decide (cols_A ≤ lda) && decide (d ≤ ldb)
  check_s && check_ab

/-- Model of `RandBLAS::SparseDist` (sparse_skops.hh lines 134-165). -/
structure SparseDist where
  n_rows : Nat
  n_cols : Nat
  vec_nnz : Nat
  major_axis : MajorAxis
deriving DecidableEq, Repr

/-- One record per inner Fisher-Yates step of `repeated_fisher_yates`:
the emitted major-axis index (the `swap` value), the ±1 value, and the
pivot `ell`. -/
structure FYStep where
  idx : Nat
  val : Int
  pivot : Nat
deriving DecidableEq, Repr

variable (g : Nat → Nat → Nat × Nat)

/-- The inner `for (j = 0; …)` loop of `repeated_fisher_yates`
(sparse_skops.hh lines 76-92), started at column `j` with counter `ctr`,
running `m` more steps over the working permutation `w`: each step draws
`rv = gen(ctr_work, key)`, picks `ell = j + rv[0] mod (dim_major - j)`,
swaps `w[ell]` and `w[j]`, emits the pre-swap `w[ell]` as the major
index, a ±1 value from `rv[1] mod 2`, and records the pivot.  Returns
the emitted records and the final `w`. -/
def fyLoop (key dim_major : Nat) : List Nat → Nat → Nat → Nat → List FYStep × List Nat
  | w, _, _, 0 => ([], w)
  | w, ctr, j, m + 1 =>
      let rv := g ctr key
      let ell := j + rv.1 % (dim_major - j)
      let swap := w.getD ell 0
      let w2 := (w.set ell (w.getD j 0)).set j swap
      let sign : Int := if rv.2 % 2 = 0 then 1 else -1
      let rest := fyLoop key dim_major w2 (ctr + 1) (j + 1) m
      (⟨swap, sign, ell⟩ :: rest.1, rest.2)

/-- The undo loop of `repeated_fisher_yates` (lines 97-103): the
recorded steps are undone from the last back to the first; step `e`
recorded at position `j` restores `w[j] = w[e.pivot]; w[e.pivot] = e.idx`
after all later steps have been undone. -/
def fyUndoList (j : Nat) : List FYStep → List Nat → List Nat
  | [], w => w
  | e :: rest, w =>
      let w2 := fyUndoList (j + 1) rest w
      (w2.set j (w2.getD e.pivot 0)).set e.pivot e.idx

/-- The outer slice loop of `repeated_fisher_yates` (lines 72-104): for
slice `i` the base counter is derived absolutely as
`ctr + i · vec_nnz`; after each slice, the swaps are undone in reverse
to restore `vec_work`.  Returns the per-slice emitted records. -/
def rfyOuter (key vec_nnz dim_major ctr : Nat) : List Nat → Nat → Nat → List (List FYStep)
  | _, _, 0 => []
  | w, i, m + 1 =>
      let sl := fyLoop g key dim_major w (ctr + i * vec_nnz) 0 vec_nnz
      let w2 := fyUndoList 0 sl.1 sl.2
      sl.1 :: rfyOuter key vec_nnz dim_major ctr w2 (i + 1) m

/-- `repeated_fisher_yates` (sparse_skops.hh lines 53-106): fails
(`randblas_error_if`) when `vec_nnz > dim_major`; otherwise initializes
`vec_work = [0 … dim_major-1]`, runs `dim_minor` slices, and writes
`idxs_major[i·k + j]` (emitted indices), `idxs_minor[i·k + j] = i`, and
`vals[i·k + j] ∈ {+1, -1}`.  Returns `RNGState{ctr, key}` with the
counter unchanged. -/
def repeated_fisher_yates (state : RNGStateM) (vec_nnz dim_major dim_minor : Nat) :
    Option (List Nat × List Nat × List Int × RNGStateM) :=
  if vec_nnz > dim_major then none
  else
    let slices := rfyOuter g state.key vec_nnz dim_major state.ctr
      (List.range dim_major) 0 dim_minor
    some (slices.flatMap (fun sl => sl.map FYStep.idx),
          (List.range dim_minor).flatMap (fun i => List.replicate vec_nnz i),
          slices.flatMap (fun sl => sl.map FYStep.val),
          ⟨state.ctr, state.key⟩)

/-- `compute_next_state` (sparse_skops.hh lines 115-126): advance the
counter by `minor_len · vec_nnz`. -/
def compute_next_state (dist : SparseDist) (state : RNGStateM) : RNGStateM :=
  let minor_len := if dist.major_axis = MajorAxis.Short then
      min dist.n_rows dist.n_cols else max dist.n_rows dist.n_cols
  ⟨state.ctr + minor_len * dist.vec_nnz, state.key⟩

/-- `fill_sparse` (sparse_skops.hh lines 389-413) at the level of the
COO arrays it writes: wide operators receive short-axis indices in
`rows` and long-axis indices in `cols`, tall operators the other way;
Short-major calls the sampler with `(dim_major, dim_minor) =
(short_len, long_len)`, Long-major with the two swapped.  `none` models
the error thrown inside `repeated_fisher_yates`. -/
def fill_sparse (dist : SparseDist) (seed : RNGStateM) :
    Option (List Nat × List Nat × List Int) :=
  let long_ax_len := max dist.n_rows dist.n_cols
  let short_ax_len := min dist.n_rows dist.n_cols
  let is_wide := dist.n_rows = short_ax_len
  match (if dist.major_axis = MajorAxis.Short then
          repeated_fisher_yates g seed dist.vec_nnz short_ax_len long_ax_len
        else
          repeated_fisher_yates g seed dist.vec_nnz long_ax_len short_ax_len) with
  | none => none
  | some (major, minor, vals, _) =>
      if dist.major_axis = MajorAxis.Short then
        some (if is_wide then (major, minor, vals) else (minor, major, vals))
      else
        some (if is_wide then (minor, major, vals) else (major, minor, vals))

/-- Model of `SparseSkOp` (sparse_skops.hh lines 183-377).  The three
COO array pointers are abstract references of types `A` (index arrays)
and `V` (value array): equality of these fields models pointer
aliasing. -/
structure SparseSkOp (A V : Type) where
  n_rows : Nat
  n_cols : Nat
  dist : SparseDist
  seed_state : RNGStateM
  next_state : RNGStateM
  own_memory : Bool
  known_filled : Bool
  rows : A
  cols : A
  vals : V
deriving DecidableEq, Repr

variable {A V : Type}

instance [Inhabited A] [Inhabited V] : Inhabited (SparseSkOp A V) :=
  ⟨⟨0, 0, ⟨0, 0, 0, MajorAxis.Short⟩, ⟨0, 0⟩, ⟨0, 0⟩, false, false, default, default, default⟩⟩

/-- The five-argument user-buffer `SparseSkOp` constructor
(sparse_skops.hh lines 268-291): checks positive dimensions and
`vec_nnz`, sets `own_memory = false`,
`next_state = compute_next_state(dist, seed_state)`, and `known_filled`
from its (defaulted-`true`) parameter. -/
def mkSparseSkOpBuffers (dist : SparseDist) (state : RNGStateM)
    (rows cols : A) (vals : V) (known_filled : Bool) : Option (SparseSkOp A V) :=
  if 0 < dist.n_rows ∧ 0 < dist.n_cols ∧ 0 < dist.vec_nnz then
    some ⟨dist.n_rows, dist.n_cols, dist, state, compute_next_state dist state,
          false, known_filled, rows, cols, vals⟩
  else
    none

/-- The six-argument shallow-copy `SparseSkOp` constructor
(sparse_skops.hh lines 293-310): takes an explicit `next_state`; its
body runs `this->known_filled = known_filled;`, and since the
constructor has no parameter of that name, the right-hand side denotes
the member itself, which was default-initialized to `false` — the flag
therefore remains `false`. -/
def mkSparseSkOpShallow (dist : SparseDist) (seed_state : RNGStateM)
    (rows cols : A) (vals : V) (next_state : RNGStateM) : Option (SparseSkOp A V) :=
  if 0 < dist.n_rows ∧ 0 < dist.n_cols ∧ 0 < dist.vec_nnz then
    some ⟨dist.n_rows, dist.n_cols, dist, seed_state, next_state,
          false, false, rows, cols, vals⟩
  else
    none

/-- The allocating `SparseSkOp` constructor (sparse_skops.hh lines
336-361): checks only positivity of the dimensions and `vec_nnz` (it
performs no comparison of `vec_nnz` against the short axis), sets
`own_memory = true`, and leaves `known_filled` at its default `false`.
The fresh array allocations are abstracted by the given references. -/
def mkSparseSkOpAlloc (dist : SparseDist) (state : RNGStateM)
    (rows cols : A) (vals : V) : Option (SparseSkOp A V) :=
  if 0 < dist.n_rows ∧ 0 < dist.n_cols ∧ 0 < dist.vec_nnz then
    some ⟨dist.n_rows, dist.n_cols, dist, state, compute_next_state dist state,
          true, false, rows, cols, vals⟩
  else
    none

/-- `transpose` (sparse_skops.hh lines 501-513): requires
`known_filled`; builds the transposed view through the five-argument
constructor with the dimensions swapped, `major_axis` preserved, and the
`rows`/`cols` references exchanged, then sets `St.next_state =
S.next_state` (the source assigns to the `const` member; the
assignment's intended effect is modelled). -/
def transpose (S : SparseSkOp A V) : Option (SparseSkOp A V) :=
  if S.known_filled = true then
    match mkSparseSkOpBuffers
        ⟨S.dist.n_cols, S.dist.n_rows, S.dist.vec_nnz, S.dist.major_axis⟩
        S.seed_state S.cols S.rows S.vals true with
    | none => none
    | some St => some { St with next_state := S.next_state }
  else
    none

/-- A concrete word-pair generator used to evaluate the sparse model on
explicit inputs. -/
def exPairGen : Nat → Nat → Nat × Nat :=
  fun c k => (c + k, c)

/-- A 2×5 long-axis-major sparse distribution with
`vec_nnz = 3 > short_axis_length = 2`. -/
def exDistC7 : SparseDist := ⟨2, 5, 3, MajorAxis.Long⟩

/-- A 2×5 short-axis-major sparse distribution with
`vec_nnz = 3 > short_axis_length = 2`. -/
def exDistC7b : SparseDist := ⟨2, 5, 3, MajorAxis.Short⟩

/-- A 2×3 short-axis-major sparse distribution with `vec_nnz = 2`. -/
def exDistC6 : SparseDist := ⟨2, 3, 2, MajorAxis.Short⟩

/-- A concrete filled sparse operator over abstract array references
(`rows ↦ 10`, `cols ↦ 11`, `vals ↦ 12`). -/
def exSpC9 : SparseSkOp Nat Nat :=
  ⟨2, 5, ⟨2, 5, 3, MajorAxis.Short⟩, ⟨3, 4⟩, ⟨7, 4⟩, false, true, 10, 11, 12⟩

/-- A concrete generator transform used to evaluate the model on explicit
inputs. -/
def exGen : Nat → Nat → Nat → Nat :=
  fun c k i => 1000 * c + 100 * k + i

/-- A 2×2 Gaussian operator with a null buffer, seed key 5, and the
default-initialized `next_state{}`. -/
def exSkC2 : DenseSkOp Nat :=
  ⟨⟨2, 2, DenseDistName.Gaussian, MajorAxis.Long⟩, ⟨0, 5⟩, ⟨0, 0⟩, none,
    Layout.ColMajor, false⟩

/-- A 1×4 Gaussian operator with a null buffer and seed counter 0:
realizing it consumes one whole generator block (W = 4 words). -/
def exSkC3 : DenseSkOp Nat :=
  ⟨⟨1, 4, DenseDistName.Gaussian, MajorAxis.Long⟩, ⟨0, 17⟩, ⟨0, 0⟩, none,
    Layout.RowMajor, false⟩

/-- A 4×4 Gaussian operator with a null buffer. -/
def exSkC8 : DenseSkOp Nat :=
  ⟨⟨4, 4, DenseDistName.Gaussian, MajorAxis.Long⟩, ⟨0, 9⟩, ⟨0, 0⟩, none,
    Layout.ColMajor, false⟩

/-- A 4×4 Gaussian distribution. -/
def exDistC4 : DenseDist :=
  ⟨4, 4, DenseDistName.Gaussian, MajorAxis.Long⟩

theorem genBlock_length (W : Nat) (gen : Nat → Nat → Nat → α) (k b : Nat) :
    (genBlock W gen k b).length = W := by
  simp [genBlock]

theorem genBlock_getElem (W : Nat) (gen : Nat → Nat → Nat → α) (k b t : Nat) (ht : t < W) :
    (genBlock W gen k b)[t]? = some (gen b k t) := by
  simp [genBlock, List.getElem?_range ht]

theorem genBlocks_length (W : Nat) (gen : Nat → Nat → Nat → α) (k : Nat) :
    ∀ (m b : Nat), (genBlocks W gen k b m).length = m * W := by
  intro m
  induction m with
  | zero => intro b; simp [genBlocks]
  | succ m ih =>
      intro b
      simp only [genBlocks, List.length_append, genBlock_length, ih]
      ring

theorem genBlocks_getElem (W : Nat) (gen : Nat → Nat → Nat → α) (k : Nat) (hW : 0 < W) :
    ∀ (m b t : Nat), t < m * W →
      (genBlocks W gen k b m)[t]? = some (gen (b + t / W) k (t % W)) := by
  intro m
  induction m with
  | zero => intro b t ht; exact absurd ht (by simp)
  | succ m ih =>
      intro b t ht
      have hsm : (m + 1) * W = m * W + W := by ring
      by_cases h : t < W
      · rw [genBlocks, List.getElem?_append_left (by simpa [genBlock_length] using h)]
        rw [genBlock_getElem W gen k b t h, Nat.div_eq_of_lt h, Nat.mod_eq_of_lt h]
        simp
      · have hle : W ≤ t := le_of_not_lt h
        obtain ⟨u, rfl⟩ : ∃ u, t = u + W := ⟨t - W, by omega⟩
        rw [genBlocks, List.getElem?_append_right (by simpa [genBlock_length] using hle)]
        rw [genBlock_length, Nat.add_sub_cancel]
        rw [ih (b + 1) u (by omega)]
        rw [Nat.add_div_right _ hW, Nat.add_mod_right]
        congr 2
        omega

theorem rowPieces_length (W : Nat) (gen : Nat → Nat → Nat → α) (k base i0 L : Nat)
    (hW : 0 < W) (hL : 0 < L) :
    (rowPieces W gen k base i0 L).length = L := by
  simp only [rowPieces]
  set q := i0 / W with hq
  set s := i0 % W with hs0
  set d := (i0 + L - 1) / W with hd
  set e := (i0 + L - 1) % W with he0
  have hqs : W * q + s = i0 := Nat.div_add_mod i0 W
  have hde : W * d + e = i0 + L - 1 := Nat.div_add_mod (i0 + L - 1) W
  have hs : s < W := Nat.mod_lt i0 hW
  have he : e < W := Nat.mod_lt _ hW
  have hqd : q ≤ d := Nat.div_le_div_right (by omega)
  by_cases hc : q < d
  · simp only [if_pos hc]
    obtain ⟨M, hM⟩ : ∃ M, d = q + 1 + M := ⟨d - (q + 1), by omega⟩
    have hWd : W * d = W * q + W + W * M := by rw [hM]; ring
    rw [hWd] at hde
    simp only [List.length_append, List.length_map, List.length_range',
      genBlocks_length, List.length_range]
    rw [show d - (q + 1) = M from by omega, Nat.mul_comm M W]
    omega
  · simp only [if_neg hc]
    have hdq : d = q := by omega
    rw [hdq] at hde
    simp only [List.length_append, List.length_map, List.length_range',
      genBlocks_length, List.length_range]
    rw [show d - (q + 1) = 0 from by omega]
    simp
    omega

theorem rowPieces_getElem (W : Nat) (gen : Nat → Nat → Nat → α) (k base i0 L : Nat)
    (hW : 0 < W) (j : Nat) (hj : j < L) :
    (rowPieces W gen k base i0 L)[j]? =
      some (gen (base + (i0 % W + j) / W) k ((i0 % W + j) % W)) := by
  obtain ⟨q, s, hqs, hs⟩ : ∃ q s, W * q + s = i0 ∧ s < W :=
    ⟨i0 / W, i0 % W, Nat.div_add_mod i0 W, Nat.mod_lt i0 hW⟩
  obtain ⟨d, e, hde, he⟩ : ∃ d e, W * d + e = i0 + L - 1 ∧ e < W :=
    ⟨(i0 + L - 1) / W, (i0 + L - 1) % W, Nat.div_add_mod (i0 + L - 1) W, Nat.mod_lt _ hW⟩
  have hqv : i0 / W = q := by
    rw [← hqs, Nat.mul_add_div hW, Nat.div_eq_of_lt hs, Nat.add_zero]
  have hsv : i0 % W = s := by
    rw [← hqs, Nat.mul_add_mod, Nat.mod_eq_of_lt hs]
  have hdv : (i0 + L - 1) / W = d := by
    rw [← hde, Nat.mul_add_div hW, Nat.div_eq_of_lt he, Nat.add_zero]
  have hev : (i0 + L - 1) % W = e := by
    rw [← hde, Nat.mul_add_mod, Nat.mod_eq_of_lt he]
  simp only [rowPieces, hqv, hsv, hdv, hev]
  clear hqv hsv hdv hev
  have hqd : q ≤ d := by
    by_contra hcon
    have : W * d + W ≤ W * q := by
      have h2 : d + 1 ≤ q := by omega
      calc W * d + W = W * (d + 1) := by ring
        _ ≤ W * q := Nat.mul_le_mul_left W h2
    omega
  by_cases hc : q < d
  · simp only [if_pos hc]
    obtain ⟨M, hM⟩ : ∃ M, d = q + 1 + M := ⟨d - (q + 1), by omega⟩
    have hWd : W * d = W * q + W + W * M := by rw [hM]; ring
    rw [hWd] at hde
    rw [show d - (q + 1) = M from by omega, show d - q = M + 1 from by omega]
    by_cases hj1 : j < W - 1 + 1 - s
    · rw [List.append_assoc,
        List.getElem?_append_left (by simpa [List.length_map, List.length_range'] using hj1)]
      have hjW : s + j < W := by omega
      rw [List.getElem?_map, List.getElem?_range' s 1 hj1]
      rw [Nat.div_eq_of_lt hjW, Nat.mod_eq_of_lt hjW]
      simp
    · rw [List.append_assoc,
        List.getElem?_append_right (by simpa [List.length_map, List.length_range'] using hj1)]
      simp only [List.length_map, List.length_range']
      obtain ⟨t, htj⟩ : ∃ t, j = (W - 1 + 1 - s) + t := ⟨j - (W - 1 + 1 - s), by omega⟩
      rw [show j - (W - 1 + 1 - s) = t from by omega]
      by_cases hc2 : t < W * M
      · rw [List.getElem?_append_left (by rw [genBlocks_length, Nat.mul_comm M W]; omega)]
        rw [genBlocks_getElem W gen k hW M (base + 1) t (by rw [Nat.mul_comm M W]; omega)]
        rw [show s + j = t + W from by omega, Nat.add_div_right _ hW, Nat.add_mod_right]
        congr 2
        omega
      · rw [List.getElem?_append_right (by rw [genBlocks_length, Nat.mul_comm M W]; omega)]
        rw [genBlocks_length, Nat.mul_comm M W]
        obtain ⟨u, hu⟩ : ∃ u, t = W * M + u := ⟨t - W * M, by omega⟩
        rw [show t - W * M = u from by omega]
        have hue : u < e + 1 := by omega
        have huW : u < W := by omega
        rw [List.getElem?_map, List.getElem?_range hue]
        have hx : W * (M + 1) = W * M + W := by ring
        have hsj : s + j = u + W * (M + 1) := by omega
        rw [hsj, Nat.add_mul_div_left u (M + 1) hW, Nat.add_mul_mod_self_left]
        rw [Nat.div_eq_of_lt huW, Nat.mod_eq_of_lt huW]
        simp
  · simp only [if_neg hc]
    have hdq : d = q := by omega
    rw [hdq] at hde
    have heL : e = s + L - 1 := by omega
    rw [show d - (q + 1) = 0 from by omega]
    have hjW : s + j < W := by omega
    have hje : j < e + 1 - s := by omega
    rw [List.append_assoc,
      List.getElem?_append_left (by simpa [List.length_map, List.length_range'] using hje)]
    rw [List.getElem?_map, List.getElem?_range' s 1 hje]
    rw [Nat.div_eq_of_lt hjW, Nat.mod_eq_of_lt hjW]
    simp

theorem fillRow_length (W : Nat) (gen : Nat → Nat → Nat → α) (k c n_cols n_scols ptr row : Nat)
    (hW : 0 < W) (hL : 0 < n_scols) :
    (fillRow W gen k c n_cols n_scols ptr row).length = n_scols :=
  rowPieces_length W gen k _ _ _ hW hL

theorem fillRow_getElem (W : Nat) (gen : Nat → Nat → Nat → α) (k c n_cols n_scols ptr row : Nat)
    (hW : 0 < W) (j : Nat) (hj : j < n_scols) :
    (fillRow W gen k c n_cols n_scols ptr row)[j]? =
      some (streamWord W gen k c (ptr + row * n_cols + j)) := by
  rw [fillRow, rowPieces_getElem W gen k _ _ _ hW j hj, streamWord]
  obtain ⟨q, s, hqs, hs⟩ : ∃ q s, W * q + s = ptr + row * n_cols ∧ s < W :=
    ⟨(ptr + row * n_cols) / W, (ptr + row * n_cols) % W,
      Nat.div_add_mod _ W, Nat.mod_lt _ hW⟩
  have hqv : (ptr + row * n_cols) / W = q := by
    rw [← hqs, Nat.mul_add_div hW, Nat.div_eq_of_lt hs, Nat.add_zero]
  have hsv : (ptr + row * n_cols) % W = s := by
    rw [← hqs, Nat.mul_add_mod, Nat.mod_eq_of_lt hs]
  rw [hqv, hsv]
  have hpos : ptr + row * n_cols + j = s + j + W * q := by omega
  rw [hpos, Nat.add_mul_div_left _ q hW, Nat.add_mul_mod_self_left]
  congr 2
  omega

theorem worker_eq_flatMap (W : Nat) (gen : Nat → Nat → Nat → α)
    (k n_cols n_scols ptr c : Nat)
    (hL : 0 < n_scols) (hLc : n_scols ≤ n_cols) :
    ∀ (rows : List Nat) (p : Nat), List.Chain' (· < ·) rows →
      (∀ row0 ∈ rows.head?, p ≤ (ptr + row0 * n_cols) / W) →
      worker W gen k n_cols n_scols ptr (c + p, p) rows =
        rows.flatMap (fillRow W gen k c n_cols n_scols ptr) := by
  intro rows
  induction rows with
  | nil => intro p _ _; rfl
  | cons row rest ih =>
      intro p hchain hp
      rw [List.chain'_cons'] at hchain
      obtain ⟨hhead, hchain2⟩ := hchain
      have hple : p ≤ (ptr + row * n_cols) / W := hp row rfl
      have hr01 : (ptr + row * n_cols) / W ≤ (ptr + row * n_cols + n_scols - 1) / W :=
        Nat.div_le_div_right (by omega)
      simp only [worker, List.flatMap_cons]
      rw [fillRow]
      have h0 : c + p + ((ptr + row * n_cols) / W - p) = c + (ptr + row * n_cols) / W := by
        omega
      rw [h0]
      have h1 : c + (ptr + row * n_cols) / W
            + ((ptr + row * n_cols + n_scols - 1) / W - (ptr + row * n_cols) / W)
          = c + (ptr + row * n_cols + n_scols - 1) / W := by
        omega
      rw [h1]
      congr 1
      apply ih
      · exact hchain2
      · intro row1 hrow1
        have hlt : row < row1 := hhead row1 hrow1
        have hmul : row * n_cols + n_cols ≤ row1 * n_cols := by
          have h2 : (row + 1) * n_cols ≤ row1 * n_cols := Nat.mul_le_mul_right n_cols hlt
          calc row * n_cols + n_cols = (row + 1) * n_cols := by ring
            _ ≤ row1 * n_cols := h2
        exact Nat.div_le_div_right (by omega)

theorem flatMap_getElem_uniform (F : Nat → List α) (L : Nat) (hF : ∀ r, (F r).length = L) :
    ∀ (n a r j : Nat), r < n → j < L →
      ((List.range' a n).flatMap F)[r * L + j]? = (F (a + r))[j]? := by
  intro n
  induction n with
  | zero => intro a r j hr _; exact absurd hr (by omega)
  | succ n ih =>
      intro a r j hr hj
      rw [List.range'_succ a n 1, List.flatMap_cons]
      cases r with
      | zero =>
          rw [show 0 * L + j = j from by omega]
          rw [List.getElem?_append_left (by rw [hF]; exact hj)]
          simp
      | succ r2 =>
          have hexp : (r2 + 1) * L = r2 * L + L := by ring
          rw [List.getElem?_append_right (by rw [hF]; omega)]
          rw [hF, show (r2 + 1) * L + j - L = r2 * L + j from by omega]
          rw [ih (a + 1) r2 j (by omega) hj]
          congr 2
          omega

theorem fill_rsubmat_omp_eq_flatMap (W : Nat) (gen : Nat → Nat → Nat → α)
    (k c n_cols n_srows n_scols ptr : Nat) (hL : 0 < n_scols) (hLc : n_scols ≤ n_cols) :
    fill_rsubmat_omp W gen n_cols n_srows n_scols ptr ⟨c, k⟩ =
      (List.range n_srows).flatMap (fillRow W gen k c n_cols n_scols ptr) := by
  have h := worker_eq_flatMap W gen k n_cols n_scols ptr c hL hLc
    (List.range n_srows) 0 (List.pairwise_lt_range n_srows).chain'
    (fun row0 _ => Nat.zero_le _)
  rw [Nat.add_zero] at h
  exact h

theorem fill_rsubmat_omp_getElem (W : Nat) (gen : Nat → Nat → Nat → α)
    (k c n_cols n_srows n_scols ptr : Nat)
    (hW : 0 < W) (hL : 0 < n_scols) (hLc : n_scols ≤ n_cols)
    (r j : Nat) (hr : r < n_srows) (hj : j < n_scols) :
    (fill_rsubmat_omp W gen n_cols n_srows n_scols ptr ⟨c, k⟩)[r * n_scols + j]? =
      some (streamWord W gen k c (ptr + r * n_cols + j)) := by
  rw [fill_rsubmat_omp_eq_flatMap W gen k c n_cols n_srows n_scols ptr hL hLc]
  rw [List.range_eq_range']
  rw [flatMap_getElem_uniform (fillRow W gen k c n_cols n_scols ptr) n_scols
    (fun row => fillRow_length W gen k c n_cols n_scols ptr row hW hL)
    n_srows 0 r j hr hj]
  rw [Nat.zero_add]
  exact fillRow_getElem W gen k c n_cols n_scols ptr r hW j hj

/-- **C1.** For every call to `fill_rsubmat_omp` with parent row length
`n_cols`, tile shape `n_srows × n_scols` (with `n_scols ≤ n_cols`), linear
offset `ptr` and seed state `(c, k)`:
(1) the entry written at destination position `(r, j)` equals word
`(ptr + r·n_cols + j) mod W` of the generator block `OP::generate` with
counter `c` advanced by `⌊(ptr + r·n_cols + j) / W⌋`;
(2) consequently every tile equals the corresponding slice of the
full-matrix fill; and
(3) the bytes written are independent of the order or partition in which
rows are processed: any worker processing any increasing list of rows from
the initial state `(c, prev = 0)` produces, for each of its rows, exactly
the canonical absolute-counter row contents. -/
theorem C1_fill_rsubmat_omp_stream_spec (α : Type) (W : Nat)
    (gen : Nat → Nat → Nat → α) (k c n_cols n_srows n_scols ptr : Nat)
    (hW : 0 < W) (hL : 0 < n_scols) (hLc : n_scols ≤ n_cols) :
    (∀ r j, r < n_srows → j < n_scols →
      (fill_rsubmat_omp W gen n_cols n_srows n_scols ptr ⟨c, k⟩)[r * n_scols + j]? =
        some (gen (c + (ptr + r * n_cols + j) / W) k ((ptr + r * n_cols + j) % W)))
    ∧
    (∀ (NR i_off j_off r j : Nat), r < n_srows → j < n_scols →
      i_off + n_srows ≤ NR → j_off + n_scols ≤ n_cols →
      (fill_rsubmat_omp W gen n_cols n_srows n_scols
          (i_off * n_cols + j_off) ⟨c, k⟩)[r * n_scols + j]? =
        (fill_rsubmat_omp W gen n_cols NR n_cols 0
          ⟨c, k⟩)[(i_off + r) * n_cols + (j_off + j)]?)
    ∧
    (∀ rows : List Nat, List.Chain' (· < ·) rows →
      worker W gen k n_cols n_scols ptr (c, 0) rows =
        rows.flatMap (fillRow W gen k c n_cols n_scols ptr)) := by
  refine ⟨?_, ?_, ?_⟩
  · intro r j hr hj
    exact fill_rsubmat_omp_getElem W gen k c n_cols n_srows n_scols ptr hW hL hLc r j hr hj
  · intro NR i_off j_off r j hr hj hNR hNC
    rw [fill_rsubmat_omp_getElem W gen k c n_cols n_srows n_scols
      (i_off * n_cols + j_off) hW hL hLc r j hr hj]
    rw [fill_rsubmat_omp_getElem W gen k c n_cols NR n_cols 0 hW (by omega) le_rfl
      (i_off + r) (j_off + j) (by omega) (by omega)]
    rw [Nat.zero_add]
    have hpos : i_off * n_cols + j_off + r * n_cols + j
        = (i_off + r) * n_cols + (j_off + j) := by ring
    rw [hpos]
  · intro rows hchain
    have h := worker_eq_flatMap W gen k n_cols n_scols ptr c hL hLc rows 0 hchain
      (fun row0 _ => Nat.zero_le _)
    rw [Nat.add_zero] at h
    exact h

/-- Witness for C1 at `W = 4`, parent row length 5, a 3×3 tile at linear
offset 7, seed `(5, 2)`, destination position `(2, 1)`. -/
theorem C1_witness :
    (0 < 4 ∧ 0 < 3 ∧ 3 ≤ 5)
    ∧ (fill_rsubmat_omp 4 exGen 5 3 3 7 ⟨5, 2⟩)[2 * 3 + 1]? =
        some (exGen (5 + (7 + 2 * 5 + 1) / 4) 2 ((7 + 2 * 5 + 1) % 4)) :=
  ⟨⟨by decide, by decide, by decide⟩,
    (C1_fill_rsubmat_omp_stream_spec Nat 4 exGen 2 5 5 3 3 7 (by decide) (by decide)
      (by decide)).1 2 1 (by decide) (by decide)⟩

theorem flatMap_length_uniform (F : Nat → List α) (L : Nat) (hF : ∀ r, (F r).length = L) :
    ∀ (n a : Nat), ((List.range' a n).flatMap F).length = n * L := by
  intro n
  induction n with
  | zero => intro a; simp
  | succ n ih =>
      intro a
      rw [List.range'_succ a n 1, List.flatMap_cons, List.length_append, hF, ih (a + 1)]
      ring

theorem fill_rsubmat_omp_length (W : Nat) (gen : Nat → Nat → Nat → α)
    (n_cols n_srows n_scols ptr c k : Nat)
    (hW : 0 < W) (hL : 0 < n_scols) (hLc : n_scols ≤ n_cols) :
    (fill_rsubmat_omp W gen n_cols n_srows n_scols ptr ⟨c, k⟩).length
      = n_srows * n_scols := by
  rw [fill_rsubmat_omp_eq_flatMap W gen k c n_cols n_srows n_scols ptr hL hLc]
  rw [List.range_eq_range']
  exact flatMap_length_uniform _ n_scols
    (fun r => fillRow_length W gen k c n_cols n_scols ptr r hW hL) n_srows 0

theorem fill_rmat_length (W : Nat) (gen : Nat → Nat → Nat → α) (a b : Nat)
    (seed : RNGStateM) (ma : MajorAxis) (hW : 0 < W) (ha : 0 < a) (hb : 0 < b) :
    (fill_rmat W gen a b seed ma).length = a * b := by
  rw [fill_rmat]
  split
  · exact (fill_rsubmat_omp_length W gen a b a 0 seed.ctr seed.key hW ha le_rfl).trans
      (Nat.mul_comm b a)
  · exact fill_rsubmat_omp_length W gen b a b 0 seed.ctr seed.key hW hb le_rfl

theorem lskge3_S0_after_shape (W : Nat) (gaussOp unifOp : Nat → Nat → Nat → α)
    (S0 : DenseSkOp α) :
    lskge3_S0_after W gaussOp unifOp S0 = S0
    ∨ lskge3_S0_after W gaussOp unifOp S0 = { S0 with next_state := S0.seed_state } := by
  by_cases hcond : 0 < S0.dist.n_rows ∧ 0 < S0.dist.n_cols
      ∧ (S0.dist.family = DenseDistName.BlackBox → S0.buff.isSome = true)
  · unfold lskge3_S0_after
    simp only [mkDenseSkOp, if_pos hcond]
    cases hbb : S0.buff with
    | some b => left; rfl
    | none =>
        simp only [realize_full, fill_buff]
        cases hfam3 : S0.dist.family with
        | BlackBox => left; rfl
        | Gaussian => right; rfl
        | Uniform => right; rfl
  · refine Or.inl ?_
    unfold lskge3_S0_after
    simp [mkDenseSkOp, hcond]

theorem lskge3_S0_after_of_isSome (W : Nat) (gaussOp unifOp : Nat → Nat → Nat → α)
    (S0 : DenseSkOp α) (hb : S0.buff.isSome = true) :
    lskge3_S0_after W gaussOp unifOp S0 = S0 := by
  obtain ⟨b, hbb⟩ := Option.isSome_iff_exists.mp hb
  unfold lskge3_S0_after
  rw [hbb]
  cases (mkDenseSkOp S0.dist S0.seed_state (some b) : Option (DenseSkOp α)) <;> rfl

theorem lskge3_S0_after_of_none (W : Nat) (gaussOp unifOp : Nat → Nat → Nat → α)
    (S0 : DenseSkOp α) (hb : S0.buff = none)
    (hf : S0.dist.family = DenseDistName.Gaussian ∨ S0.dist.family = DenseDistName.Uniform)
    (h1 : 0 < S0.dist.n_rows) (h2 : 0 < S0.dist.n_cols) :
    lskge3_S0_after W gaussOp unifOp S0 = { S0 with next_state := S0.seed_state } := by
  unfold lskge3_S0_after
  rcases hf with hf | hf <;> simp only [mkDenseSkOp, hb, hf] <;>
    rw [if_pos ⟨h1, h2, fun hx => DenseDistName.noConfusion hx⟩] <;>
    simp only [realize_full, fill_buff, hf] <;> rfl

/-- **C2** counterexample: `lskge3` on an operator with a null buffer
mutates the caller's `next_state` (dense.hh line 494), so the operator is
not identical after the call. -/
theorem C2_counterexample_lskge3_mutates_next_state :
    exSkC2.buff = none ∧ lskge3_S0_after 4 exGen exGen exSkC2 ≠ exSkC2 := by
  decide

/-- **C2** (amended): `rskge3` never mutates the caller's operator; on
the null-buffer path `lskge3` mutates exactly `next_state` (writing the
state produced by realizing the shallow copy, which is `seed_state`) and
leaves every other field, including `buff`, unchanged; with a non-null
buffer `lskge3` leaves the operator identical. -/
theorem C2_amended_operator_mutation (α : Type) (W : Nat)
    (gaussOp unifOp : Nat → Nat → Nat → α) (S0 : DenseSkOp α) :
    rskge3_S0_after S0 = S0
    ∧ (lskge3_S0_after W gaussOp unifOp S0).dist = S0.dist
    ∧ (lskge3_S0_after W gaussOp unifOp S0).seed_state = S0.seed_state
    ∧ (lskge3_S0_after W gaussOp unifOp S0).buff = S0.buff
    ∧ (lskge3_S0_after W gaussOp unifOp S0).layout = S0.layout
    ∧ (lskge3_S0_after W gaussOp unifOp S0).del_buff_on_destruct = S0.del_buff_on_destruct
    ∧ (S0.buff.isSome = true → lskge3_S0_after W gaussOp unifOp S0 = S0)
    ∧ (S0.buff = none →
        (S0.dist.family = DenseDistName.Gaussian
          ∨ S0.dist.family = DenseDistName.Uniform) →
        0 < S0.dist.n_rows → 0 < S0.dist.n_cols →
        (lskge3_S0_after W gaussOp unifOp S0).next_state = S0.seed_state) := by
  refine ⟨rfl, ?_, ?_, ?_, ?_, ?_,
    lskge3_S0_after_of_isSome W gaussOp unifOp S0,
    fun hb hf h1 h2 => by rw [lskge3_S0_after_of_none W gaussOp unifOp S0 hb hf h1 h2]⟩ <;>
  · obtain h | h := lskge3_S0_after_shape W gaussOp unifOp S0 <;> rw [h]

/-- Witness for C2's amended theorem at a concrete operator. -/
theorem C2_amended_witness :
    exSkC2.buff = none
    ∧ (exSkC2.dist.family = DenseDistName.Gaussian
        ∨ exSkC2.dist.family = DenseDistName.Uniform)
    ∧ 0 < exSkC2.dist.n_rows ∧ 0 < exSkC2.dist.n_cols
    ∧ (lskge3_S0_after 4 exGen exGen exSkC2).next_state = exSkC2.seed_state :=
  ⟨by decide, Or.inl (by decide), by decide, by decide,
    (C2_amended_operator_mutation Nat 4 exGen exGen exSkC2).2.2.2.2.2.2.2
      (by decide) (Or.inl (by decide)) (by decide) (by decide)⟩

/-- **C3** (code bug): `fill_rsubmat_omp` returns `RNGState{c, k}` built
from the seed's unmodified locals (only the OMP-private copy `cc` is
advanced), so `realize_full` stores `next_state = seed_state` — not the
counter that succeeds all `n_rows·n_cols` entries of `S` in the sample
stream.  For the 1×4 Gaussian operator `exSkC3` with seed counter 0 and
`W = 4`, one whole block is consumed, so the successor counter is 1, yet
the stored `next_state` keeps counter 0. -/
theorem C3_next_state_not_advanced :
    (∀ seed : RNGStateM, fill_rsubmat_omp_ret seed = seed)
    ∧ (realize_full 4 exGen exGen exSkC3 true).map DenseSkOp.next_state
        = some exSkC3.seed_state
    ∧ exSkC3.seed_state.ctr
        + (exSkC3.dist.n_rows * exSkC3.dist.n_cols + 4 - 1) / 4
      ≠ exSkC3.seed_state.ctr :=
  ⟨fun seed => rfl, by decide, by decide⟩

/-- The lazy-path observables of `lskge3` for the 4×4 operator `exSkC8`
with `transS = NoTrans`, `d = m = 2`, offsets `(1, 1)`. -/
theorem C8_counterexample_full_allocation :
    (lskge3_lazy_trace 4 exGen exGen exSkC8 1 1).map LazyRealizeTrace.alloc_len
        = some 16
    ∧ (lskge3_lazy_trace 4 exGen exGen exSkC8 1 1).map LazyRealizeTrace.gemm_offset
        = some 5
    ∧ (16 : Nat) ≠ 2 * 2 ∧ (5 : Nat) ≠ 0 := by
  decide

/-- **C8** (amended): on the null-buffer path, `lskge3` allocates a
buffer of `n_rows · n_cols` entries (the whole operator, via
`realize_full` on a shallow copy), fills all of it from `seed_state`, has
the single GEMM call read it at index `pos` (`i_os + n_rows·j_os` for a
ColMajor operator, `i_os·n_cols + j_os` for RowMajor), and frees it on
return (the copy's destructor runs with `del_buff_on_destruct = true`). -/
theorem C8_amended_lazy_path (α : Type) (W : Nat)
    (gaussOp unifOp : Nat → Nat → Nat → α) (S0 : DenseSkOp α) (i_os j_os : Nat)
    (hW : 0 < W) (hbuff : S0.buff = none)
    (hfam : S0.dist.family = DenseDistName.Gaussian
      ∨ S0.dist.family = DenseDistName.Uniform)
    (h1 : 0 < S0.dist.n_rows) (h2 : 0 < S0.dist.n_cols) :
    ∃ t, lskge3_lazy_trace W gaussOp unifOp S0 i_os j_os = some t
      ∧ t.alloc_len = S0.dist.n_rows * S0.dist.n_cols
      ∧ t.content.length = S0.dist.n_rows * S0.dist.n_cols
      ∧ t.freed_on_return = true
      ∧ t.gemm_offset = (if S0.layout = Layout.ColMajor then
            i_os + S0.dist.n_rows * j_os
          else i_os * S0.dist.n_cols + j_os) := by
  unfold lskge3_lazy_trace
  rcases hfam with hf | hf <;> simp only [mkDenseSkOp, hbuff, hf] <;>
    rw [if_pos ⟨h1, h2, fun hx => DenseDistName.noConfusion hx⟩] <;>
    simp only [realize_full, fill_buff, hf] <;>
    exact ⟨_, rfl, rfl, fill_rmat_length W _ _ _ _ _ hW h1 h2, rfl, rfl⟩

/-- Witness for C8's amended theorem at the concrete operator `exSkC8`. -/
theorem C8_amended_witness :
    (0 < 4 ∧ exSkC8.buff = none ∧ exSkC8.dist.family = DenseDistName.Gaussian
      ∧ 0 < exSkC8.dist.n_rows ∧ 0 < exSkC8.dist.n_cols)
    ∧ (lskge3_lazy_trace 4 exGen exGen exSkC8 1 1).map LazyRealizeTrace.alloc_len
        = some (exSkC8.dist.n_rows * exSkC8.dist.n_cols) := by
  refine ⟨⟨by decide, by decide, by decide, by decide, by decide⟩, ?_⟩
  obtain ⟨t, ht, halloc, _⟩ := C8_amended_lazy_path Nat 4 exGen exGen exSkC8 1 1
    (by decide) (by decide) (Or.inl (by decide)) (by decide) (by decide)
  rw [ht]
  simp [halloc]

/-- **C4** counterexample: `lskge3`'s check section passes even though
`S.dist.n_rows < rows_submat_S + i_os` (here `4 < 2 + 3`): `lskge3`
never reads the offsets in its `randblas_require` checks. -/
theorem C4_counterexample_lskge3_no_offset_check :
    lskge3_checks exDistC4 Layout.ColMajor Layout.ColMajor Op.NoTrans Op.NoTrans
        2 2 2 3 3 2 2 = true
    ∧ exDistC4.n_rows < 2 + 3 := by
  decide

/-- **C4** (amended): only `rskge3` performs the submatrix-bounds checks
with offsets: its check section passes iff
`rows_submat_S + i_os ≤ n_rows ∧ cols_submat_S + j_os ≤ n_cols` — in
terms of the caller's (unflipped) `transS`, because the flip of `transS`
and the swap of the comparisons cancel when layouts oppose — together
with the `lda`/`ldb` bounds.  `lskge3`'s check section is independent of
`i_os` and `j_os`: it only constrains `lds` against the submatrix
dimensions and `lda`/`ldb`. -/
theorem C4_amended_dimension_checks (S0dist : DenseDist) (S0layout layout : Layout)
    (transS0 transA : Op) (d n m i_os j_os i_os2 j_os2 lda ldb : Nat) :
    (lskge3_checks S0dist S0layout layout transS0 transA d n m i_os j_os lda ldb
      = lskge3_checks S0dist S0layout layout transS0 transA d n m i_os2 j_os2 lda ldb)
    ∧ (rskge3_checks S0dist S0layout layout transA transS0 m d n i_os j_os lda ldb = true
        ↔ ((if transS0 = Op.NoTrans then n else d) + i_os ≤ S0dist.n_rows
          ∧ (if transS0 = Op.NoTrans then d else n) + j_os ≤ S0dist.n_cols
          ∧ (if layout = Layout.ColMajor then
              (if transA = Op.NoTrans then m else n) ≤ lda ∧ m ≤ ldb
            else (if transA = Op.NoTrans then n else m) ≤ lda ∧ d ≤ ldb))) := by
  constructor
  · rfl
  · cases S0layout <;> cases layout <;> cases transS0 <;> cases transA <;>
      simp [rskge3_checks, and_assoc]

theorem getD_set_self (l : List Nat) (i a : Nat) (h : i < l.length) :
    (l.set i a).getD i 0 = a := by
  simp [List.getD_eq_getElem?_getD, List.getElem?_set_self h]

theorem getD_set_ne (l : List Nat) (i jj a : Nat) (h : i ≠ jj) :
    (l.set i a).getD jj 0 = l.getD jj 0 := by
  simp [List.getD_eq_getElem?_getD, List.getElem?_set_ne h]

theorem getD_eq_get (l : List Nat) (t : Nat) (h : t < l.length) :
    l.getD t 0 = l.get ⟨t, h⟩ := by
  simp [List.getD_eq_getElem?_getD, List.getElem?_eq_getElem h]

theorem set_getD_self (l : List Nat) (i : Nat) (h : i < l.length) :
    l.set i (l.getD i 0) = l := by
  apply List.ext_getElem?
  intro n
  by_cases hn : n = i
  · subst hn
    rw [List.getElem?_set_self h, getD_eq_get l n h]
    simp [List.getElem?_eq_getElem h]
  · rw [List.getElem?_set_ne (fun hx => hn hx.symm)]

theorem count_set_add (x : Nat) :
    ∀ (l : List Nat) (i a : Nat), i < l.length →
      (l.set i a).count x + (if l.getD i 0 = x then 1 else 0)
        = l.count x + (if a = x then 1 else 0) := by
  intro l
  induction l with
  | nil => intro i a h; exact absurd h (by simp)
  | cons c t ih =>
      intro i a h
      cases i with
      | zero =>
          simp only [List.set, List.getD_cons_zero, List.count_cons, beq_iff_eq]
          split_ifs <;> omega
      | succ i2 =>
          simp only [List.set, List.getD_cons_succ, List.count_cons, beq_iff_eq]
          have := ih i2 a (by simpa using h)
          omega

theorem set_swap_perm (w : List Nat) (j ell : Nat) (hj : j < w.length)
    (hell : ell < w.length) :
    ((w.set ell (w.getD j 0)).set j (w.getD ell 0)).Perm w := by
  rw [List.perm_iff_count]
  intro x
  have h1 := count_set_add x (w.set ell (w.getD j 0)) j (w.getD ell 0) (by simpa using hj)
  have h2 := count_set_add x w ell (w.getD j 0) hell
  by_cases hje : j = ell
  · subst hje
    rw [getD_set_self w j (w.getD j 0) hj] at h1
    split_ifs at h1 h2 <;> omega
  · rw [getD_set_ne w ell j (w.getD j 0) (fun hx => hje hx.symm)] at h1
    split_ifs at h1 h2 <;> omega

theorem undo_step_eq (w : List Nat) (j ell : Nat) (hj : j < w.length)
    (hell : ell < w.length) :
    ((((w.set ell (w.getD j 0)).set j (w.getD ell 0)).set j
        (((w.set ell (w.getD j 0)).set j (w.getD ell 0)).getD ell 0)).set ell
        (w.getD ell 0)) = w := by
  by_cases hje : j = ell
  · subst hje
    simp only [List.set_set]
    exact set_getD_self w j hj
  · have hgd : ((w.set ell (w.getD j 0)).set j (w.getD ell 0)).getD ell 0
        = w.getD j 0 := by
      rw [getD_set_ne _ j ell _ hje, getD_set_self w ell _ hell]
    rw [hgd, List.set_set]
    rw [List.set_comm _ _ w (fun hx => hje hx.symm)]
    rw [List.set_set]
    have hgd2 : w.getD ell 0 = (w.set j (w.getD j 0)).getD ell 0 := by
      rw [getD_set_ne _ j ell _ hje]
    rw [hgd2, set_getD_self _ ell (by simpa using hell), set_getD_self w j hj]

theorem fyLoop_fst_length (key n : Nat) :
    ∀ (m : Nat) (w : List Nat) (ctr j : Nat),
      (fyLoop g key n w ctr j m).1.length = m := by
  intro m
  induction m with
  | zero => intro w ctr j; rfl
  | succ m ih =>
      intro w ctr j
      simp only [fyLoop, List.length_cons, ih]

theorem fyLoop_snd_length (key n : Nat) :
    ∀ (m : Nat) (w : List Nat) (ctr j : Nat),
      (fyLoop g key n w ctr j m).2.length = w.length := by
  intro m
  induction m with
  | zero => intro w ctr j; rfl
  | succ m ih =>
      intro w ctr j
      simp only [fyLoop, ih, List.length_set]

theorem fyLoop_snd_perm (key n : Nat) :
    ∀ (m : Nat) (w : List Nat) (ctr j : Nat), w.length = n → j + m ≤ n →
      ((fyLoop g key n w ctr j m).2).Perm w := by
  intro m
  induction m with
  | zero => intro w ctr j _ _; exact List.Perm.refl w
  | succ m ih =>
      intro w ctr j hw hjm
      have hj : j < w.length := by omega
      have hell : j + (g ctr key).1 % (n - j) < w.length := by
        have := Nat.mod_lt (g ctr key).1 (show 0 < n - j by omega)
        omega
      simp only [fyLoop]
      exact (ih _ (ctr + 1) (j + 1) (by simp [hw]) (by omega)).trans
        (set_swap_perm w j _ hj hell)

theorem fyLoop_below_start (key n : Nat) :
    ∀ (m : Nat) (w : List Nat) (ctr j pos : Nat), pos < j →
      ((fyLoop g key n w ctr j m).2).getD pos 0 = w.getD pos 0 := by
  intro m
  induction m with
  | zero => intro w ctr j pos _; rfl
  | succ m ih =>
      intro w ctr j pos hpos
      simp only [fyLoop]
      rw [ih _ (ctr + 1) (j + 1) pos (by omega)]
      rw [getD_set_ne _ j pos _ (by omega)]
      rw [getD_set_ne _ _ pos _ (by omega)]

theorem fyLoop_emits (key n : Nat) :
    ∀ (m : Nat) (w : List Nat) (ctr j : Nat), w.length = n → j + m ≤ n →
      (fyLoop g key n w ctr j m).1.map FYStep.idx
        = (List.range' j m).map (fun t => ((fyLoop g key n w ctr j m).2).getD t 0) := by
  intro m
  induction m with
  | zero => intro w ctr j _ _; rfl
  | succ m ih =>
      intro w ctr j hw hjm
      have hj : j < w.length := by omega
      rw [List.range'_succ j m 1]
      simp only [fyLoop, List.map_cons]
      congr 1
      · rw [fyLoop_below_start g key n m _ (ctr + 1) (j + 1) j (by omega)]
        rw [getD_set_self _ j _ (by simp [hj])]
      · exact ih _ (ctr + 1) (j + 1) (by simp [hw]) (by omega)

theorem fyLoop_vals (key n : Nat) :
    ∀ (m : Nat) (w : List Nat) (ctr j : Nat) (e : FYStep),
      e ∈ (fyLoop g key n w ctr j m).1 → e.val = 1 ∨ e.val = -1 := by
  intro m
  induction m with
  | zero => intro w ctr j e he; exact absurd he (by simp [fyLoop])
  | succ m ih =>
      intro w ctr j e he
      simp only [fyLoop, List.mem_cons] at he
      rcases he with rfl | he
      · by_cases hs : (g ctr key).2 % 2 = 0 <;> simp [hs]
      · exact ih _ (ctr + 1) (j + 1) e he

theorem fyLoop_undo (key n : Nat) :
    ∀ (m : Nat) (w : List Nat) (ctr j : Nat), w.length = n → j + m ≤ n →
      fyUndoList j (fyLoop g key n w ctr j m).1 (fyLoop g key n w ctr j m).2 = w := by
  intro m
  induction m with
  | zero => intro w ctr j _ _; rfl
  | succ m ih =>
      intro w ctr j hw hjm
      have hj : j < w.length := by omega
      have hell : j + (g ctr key).1 % (n - j) < w.length := by
        have := Nat.mod_lt (g ctr key).1 (show 0 < n - j by omega)
        omega
      simp only [fyLoop, fyUndoList]
      rw [ih _ (ctr + 1) (j + 1) (by simp [hw]) (by omega)]
      exact undo_step_eq w j _ hj hell

theorem rfyOuter_eq (key k n ctr : Nat) (hk : k ≤ n) :
    ∀ (m i : Nat), rfyOuter g key k n ctr (List.range n) i m
      = (List.range' i m).map
          (fun t => (fyLoop g key n (List.range n) (ctr + t * k) 0 k).1) := by
  intro m
  induction m with
  | zero => intro i; rfl
  | succ m ih =>
      intro i
      rw [List.range'_succ i m 1]
      simp only [rfyOuter, List.map_cons]
      congr 1
      rw [fyLoop_undo g key n k (List.range n) (ctr + i * k) 0 (by simp) (by simpa using hk)]
      exact ih (i + 1)

theorem flatMap_slice_uniform {β : Type} (F : Nat → List β) (k : Nat)
    (hF : ∀ r, (F r).length = k) :
    ∀ (n a i : Nat), i < n →
      (((List.range' a n).flatMap F).drop (i * k)).take k = F (a + i) := by
  intro n
  induction n with
  | zero => intro a i h; exact absurd h (by omega)
  | succ n ih =>
      intro a i hi
      rw [List.range'_succ a n 1, List.flatMap_cons]
      cases i with
      | zero =>
          rw [Nat.zero_mul, List.drop_zero]
          rw [List.take_left' (hF a), Nat.add_zero]
      | succ i2 =>
          rw [show (i2 + 1) * k = k + i2 * k from by ring, ← List.drop_drop]
          rw [List.drop_left' (hF a)]
          rw [ih (a + 1) i2 (by omega)]
          congr 1
          omega

theorem flatMap_map_comp {β γ δ : Type} (l : List γ) (f : γ → β) (F : β → List δ) :
    (l.map f).flatMap F = l.flatMap (fun x => F (f x)) := by
  induction l with
  | nil => rfl
  | cons c t ih => simp only [List.map_cons, List.flatMap_cons, ih]

theorem rfy_short_slices (state : RNGStateM) (k n r : Nat) (hk : k ≤ n) :
    ∀ out, repeated_fisher_yates g state k n r = some out →
      ∀ i, i < r →
        ((out.1.drop (i * k)).take k).length = k
        ∧ ((out.1.drop (i * k)).take k).Nodup
        ∧ (∀ x ∈ (out.1.drop (i * k)).take k, x < n)
        ∧ (out.2.1.drop (i * k)).take k = List.replicate k i
        ∧ (∀ v ∈ (out.2.2.1.drop (i * k)).take k, v = 1 ∨ v = -1) := by
  intro out hout i hi
  rw [repeated_fisher_yates, if_neg (by omega)] at hout
  obtain rfl := (Option.some.inj hout).symm
  have hIdx : (((rfyOuter g state.key k n state.ctr (List.range n) 0 r).flatMap
        (fun sl => sl.map FYStep.idx)).drop (i * k)).take k
      = ((fyLoop g state.key n (List.range n) (state.ctr + i * k) 0 k).1).map FYStep.idx := by
    rw [rfyOuter_eq g state.key k n state.ctr hk r 0, flatMap_map_comp]
    rw [flatMap_slice_uniform _ k
      (fun t => by rw [List.length_map, fyLoop_fst_length]) r 0 i hi]
    rw [Nat.zero_add]
  have hVal : (((rfyOuter g state.key k n state.ctr (List.range n) 0 r).flatMap
        (fun sl => sl.map FYStep.val)).drop (i * k)).take k
      = ((fyLoop g state.key n (List.range n) (state.ctr + i * k) 0 k).1).map FYStep.val := by
    rw [rfyOuter_eq g state.key k n state.ctr hk r 0, flatMap_map_comp]
    rw [flatMap_slice_uniform _ k
      (fun t => by rw [List.length_map, fyLoop_fst_length]) r 0 i hi]
    rw [Nat.zero_add]
  have hMin : ((((List.range r).flatMap fun i2 => List.replicate k i2).drop (i * k)).take k)
      = List.replicate k i := by
    rw [List.range_eq_range',
      flatMap_slice_uniform _ k (fun t => by simp) r 0 i hi, Nat.zero_add]
  have hperm := fyLoop_snd_perm g state.key n k (List.range n) (state.ctr + i * k) 0
    (by simp) (by simpa using hk)
  have hlen : ((fyLoop g state.key n (List.range n) (state.ctr + i * k) 0 k).2).length = n := by
    rw [fyLoop_snd_length]; simp
  have hnodup : ((fyLoop g state.key n (List.range n) (state.ctr + i * k) 0 k).2).Nodup :=
    hperm.nodup_iff.mpr (List.nodup_range n)
  have hemits := fyLoop_emits g state.key n k (List.range n) (state.ctr + i * k) 0
    (by simp) (by simpa using hk)
  rw [← List.range_eq_range'] at hemits
  refine ⟨?_, ?_, ?_, hMin, ?_⟩
  · rw [hIdx, List.length_map, fyLoop_fst_length]
  · rw [hIdx, hemits]
    refine List.Nodup.map_on ?_ (List.nodup_range k)
    intro x hx y hy hxy
    have hxk : x < k := List.mem_range.mp hx
    have hyk : y < k := List.mem_range.mp hy
    rw [getD_eq_get _ x (by omega), getD_eq_get _ y (by omega)] at hxy
    have := List.nodup_iff_injective_get.mp hnodup hxy
    exact congrArg Fin.val this
  · rw [hIdx, hemits]
    intro x hx
    obtain ⟨t, ht, rfl⟩ := List.mem_map.mp hx
    have htk : t < k := List.mem_range.mp ht
    rw [getD_eq_get _ t (by omega)]
    have hmem := List.get_mem ((fyLoop g state.key n (List.range n)
      (state.ctr + i * k) 0 k).2) t (by omega)
    exact List.mem_range.mp (hperm.mem_iff.mp hmem)
  · rw [hVal]
    intro v hv
    obtain ⟨e, he, rfl⟩ := List.mem_map.mp hv
    exact fyLoop_vals g state.key n k (List.range n) (state.ctr + i * k) 0 e he

/-- **C5** counterexample: the `idxs_minor` entries of slice `i` are
written as `i`, while a standalone `dim_minor = 1` run writes `0`, so the
i-th group of minor indices does not equal the standalone run's. -/
theorem C5_counterexample_minor_indices :
    ((repeated_fisher_yates exPairGen ⟨0, 3⟩ 1 2 2).map
        (fun out => (out.2.1.drop (1 * 1)).take 1) = some [1])
    ∧ ((repeated_fisher_yates exPairGen ⟨0 + 1 * 1, 3⟩ 1 2 1).map
        (fun out => (out.2.1.drop (0 * 1)).take 1) = some [0])
    ∧ ([1] : List Nat) ≠ [0] := by
  decide

/-- **C5** (amended): for `k = vec_nnz ≤ dim_major = n` and `i < r`, the
i-th group of `k` major indices and of `k` sign values produced by
`repeated_fisher_yates` equals the single slice produced by running
`repeated_fisher_yates` with `dim_minor = 1` from the state whose counter
has been advanced by `i·k` — the working permutation is restored after
every slice, so the group depends only on `state.counter + i·k` and the
key, not on whether earlier slices were generated.  The minor indices of
slice `i` are constantly `i`, whereas the standalone run writes `0`. -/
theorem C5_amended_slice_independence (key ctr n k r i : Nat) (hk : k ≤ n) (hi : i < r) :
    ∀ outR outS,
      repeated_fisher_yates g ⟨ctr, key⟩ k n r = some outR →
      repeated_fisher_yates g ⟨ctr + i * k, key⟩ k n 1 = some outS →
      (outR.1.drop (i * k)).take k = outS.1
      ∧ (outR.2.2.1.drop (i * k)).take k = outS.2.2.1
      ∧ (outR.2.1.drop (i * k)).take k = List.replicate k i
      ∧ outS.2.1 = List.replicate k 0 := by
  intro outR outS hR hS
  rw [repeated_fisher_yates, if_neg (by omega)] at hR hS
  obtain rfl := (Option.some.inj hR).symm
  obtain rfl := (Option.some.inj hS).symm
  have hsingle : ∀ (base : Nat),
      rfyOuter g key k n base (List.range n) 0 1
        = [(fyLoop g key n (List.range n) (base + 0 * k) 0 k).1] := by
    intro base
    rw [rfyOuter_eq g key k n base hk 1 0]
    rfl
  refine ⟨?_, ?_, ?_, ?_⟩ <;> dsimp only
  · rw [rfyOuter_eq g key k n ctr hk r 0, flatMap_map_comp]
    rw [flatMap_slice_uniform _ k
      (fun t => by rw [List.length_map, fyLoop_fst_length]) r 0 i hi, Nat.zero_add]
    rw [hsingle (ctr + i * k)]
    simp [List.flatMap_cons]
  · rw [rfyOuter_eq g key k n ctr hk r 0, flatMap_map_comp]
    rw [flatMap_slice_uniform _ k
      (fun t => by rw [List.length_map, fyLoop_fst_length]) r 0 i hi, Nat.zero_add]
    rw [hsingle (ctr + i * k)]
    simp [List.flatMap_cons]
  · rw [List.range_eq_range',
      flatMap_slice_uniform _ k (fun t => by simp) r 0 i hi, Nat.zero_add]
  · rw [show List.range 1 = [0] from rfl, List.flatMap_cons]
    simp

/-- Witness for the amended C5 at `n = 3`, `k = 2`, `r = 3`, `i = 2`. -/
theorem C5_amended_witness :
    (2 ≤ 3 ∧ 2 < 3
      ∧ repeated_fisher_yates exPairGen ⟨5, 9⟩ 2 3 3
          = some ((repeated_fisher_yates exPairGen ⟨5, 9⟩ 2 3 3).iget)
      ∧ repeated_fisher_yates exPairGen ⟨5 + 2 * 2, 9⟩ 2 3 1
          = some ((repeated_fisher_yates exPairGen ⟨5 + 2 * 2, 9⟩ 2 3 1).iget))
    ∧ (((repeated_fisher_yates exPairGen ⟨5, 9⟩ 2 3 3).iget.1.drop (2 * 2)).take 2
        = (repeated_fisher_yates exPairGen ⟨5 + 2 * 2, 9⟩ 2 3 1).iget.1) :=
  ⟨⟨by decide, by decide, by decide, by decide⟩,
    (C5_amended_slice_independence exPairGen 9 5 3 2 3 2 (by decide) (by decide)
      ((repeated_fisher_yates exPairGen ⟨5, 9⟩ 2 3 3).iget)
      ((repeated_fisher_yates exPairGen ⟨5 + 2 * 2, 9⟩ 2 3 1).iget)
      (by decide) (by decide)).1⟩

/-- **C6.** For a Short-major `SparseDist` with
`vec_nnz ≤ min(n_rows, n_cols)`, `fill_sparse` gives every short-axis
vector (column of a wide operator, row of a tall one) exactly `vec_nnz`
entries: slice `i` of the short-axis index array has length `vec_nnz`,
its indices are pairwise distinct and lie in `{0, …, short_len - 1}`,
the long-axis indices of the slice are constantly `i`, and every written
value is `+1` or `-1`. -/
theorem C6_short_axis_fill (dist : SparseDist) (seed : RNGStateM)
    (hma : dist.major_axis = MajorAxis.Short)
    (hk : dist.vec_nnz ≤ min dist.n_rows dist.n_cols) :
    ∀ out, fill_sparse g dist seed = some out →
      ∀ i, i < max dist.n_rows dist.n_cols →
        (((if dist.n_rows = min dist.n_rows dist.n_cols then out.1 else out.2.1).drop
            (i * dist.vec_nnz)).take dist.vec_nnz).length = dist.vec_nnz
        ∧ (((if dist.n_rows = min dist.n_rows dist.n_cols then out.1 else out.2.1).drop
            (i * dist.vec_nnz)).take dist.vec_nnz).Nodup
        ∧ (∀ x ∈ ((if dist.n_rows = min dist.n_rows dist.n_cols then out.1
              else out.2.1).drop (i * dist.vec_nnz)).take dist.vec_nnz,
            x < min dist.n_rows dist.n_cols)
        ∧ ((if dist.n_rows = min dist.n_rows dist.n_cols then out.2.1 else out.1).drop
            (i * dist.vec_nnz)).take dist.vec_nnz = List.replicate dist.vec_nnz i
        ∧ (∀ v ∈ (out.2.2.drop (i * dist.vec_nnz)).take dist.vec_nnz,
            v = 1 ∨ v = -1) := by
  intro out hout i hi
  simp only [fill_sparse, hma, reduceCtorEq, if_true, eq_self_iff_true] at hout
  cases hrfy : repeated_fisher_yates g seed dist.vec_nnz
      (min dist.n_rows dist.n_cols) (max dist.n_rows dist.n_cols) with
  | none => rw [hrfy] at hout; exact absurd hout (by simp)
  | some quad =>
      obtain ⟨major, minor, vals, st⟩ := quad
      rw [hrfy] at hout
      simp only [] at hout
      have hcore := rfy_short_slices g seed dist.vec_nnz (min dist.n_rows dist.n_cols)
        (max dist.n_rows dist.n_cols) hk (major, minor, vals, st) hrfy i hi
      by_cases hwide : dist.n_rows = min dist.n_rows dist.n_cols
      · rw [if_pos hwide] at hout
        obtain rfl := (Option.some.inj hout).symm
        simp only [if_pos hwide]
        exact hcore
      · rw [if_neg hwide] at hout
        obtain rfl := (Option.some.inj hout).symm
        simp only [if_neg hwide]
        exact hcore

/-- Witness for C6 at the 2×3 Short-major distribution `exDistC6`, slice
`i = 2`. -/
theorem C6_witness :
    (exDistC6.major_axis = MajorAxis.Short
      ∧ exDistC6.vec_nnz ≤ min exDistC6.n_rows exDistC6.n_cols
      ∧ fill_sparse exPairGen exDistC6 ⟨0, 1⟩
          = some ((fill_sparse exPairGen exDistC6 ⟨0, 1⟩).iget)
      ∧ 2 < max exDistC6.n_rows exDistC6.n_cols)
    ∧ (((if exDistC6.n_rows = min exDistC6.n_rows exDistC6.n_cols
          then (fill_sparse exPairGen exDistC6 ⟨0, 1⟩).iget.1
          else (fill_sparse exPairGen exDistC6 ⟨0, 1⟩).iget.2.1).drop
            (2 * exDistC6.vec_nnz)).take exDistC6.vec_nnz).Nodup :=
  ⟨⟨by decide, by decide, by decide, by decide⟩,
    ((C6_short_axis_fill exPairGen exDistC6 ⟨0, 1⟩ (by decide) (by decide))
      ((fill_sparse exPairGen exDistC6 ⟨0, 1⟩).iget) (by decide) 2 (by decide)).2.1⟩

/-- **C7** counterexample: for the Long-major 2×5 distribution with
`vec_nnz = 3 > short_axis_length = 2`, construction succeeds (the
constructors check only positivity) and `fill_sparse` also succeeds
(its check compares `vec_nnz` against the *long* axis); for the
Short-major variant, construction still succeeds. -/
theorem C7_counterexample_no_short_axis_check :
    min exDistC7.n_rows exDistC7.n_cols < exDistC7.vec_nnz
    ∧ (mkSparseSkOpAlloc exDistC7 ⟨0, 1⟩ (0 : Nat) (1 : Nat) (2 : Nat)).isSome = true
    ∧ (fill_sparse exPairGen exDistC7 ⟨0, 1⟩).isSome = true
    ∧ min exDistC7b.n_rows exDistC7b.n_cols < exDistC7b.vec_nnz
    ∧ (mkSparseSkOpAlloc exDistC7b ⟨0, 1⟩ (0 : Nat) (1 : Nat) (2 : Nat)).isSome = true := by
  decide

/-- **C7** (amended): the `SparseSkOp` constructors succeed iff the
dimensions and `vec_nnz` are positive (they never compare `vec_nnz`
against the short axis); `fill_sparse` fails iff `vec_nnz > dim_major`,
where `dim_major` is the short axis for Short-major distributions but
the *long* axis for Long-major ones — so only the Short-major fill fails
exactly when `vec_nnz > short_axis_length`. -/
theorem C7_amended_invalid_distribution (A V : Type) (dist : SparseDist)
    (state seed : RNGStateM) (rows cols : A) (vals : V) :
    ((mkSparseSkOpAlloc dist state rows cols vals).isSome = true
      ↔ 0 < dist.n_rows ∧ 0 < dist.n_cols ∧ 0 < dist.vec_nnz)
    ∧ (fill_sparse g dist seed = none
      ↔ (if dist.major_axis = MajorAxis.Short then
            min dist.n_rows dist.n_cols
          else max dist.n_rows dist.n_cols) < dist.vec_nnz) := by
  constructor
  · by_cases hc : 0 < dist.n_rows ∧ 0 < dist.n_cols ∧ 0 < dist.vec_nnz <;>
      simp [mkSparseSkOpAlloc, hc]
  · by_cases hma : dist.major_axis = MajorAxis.Short <;>
      by_cases hv : (if dist.major_axis = MajorAxis.Short then
          min dist.n_rows dist.n_cols else max dist.n_rows dist.n_cols) < dist.vec_nnz <;>
      simp only [hma, if_true, if_false, eq_self_iff_true] at hv ⊢ <;>
      simp [fill_sparse, repeated_fisher_yates, hma, hv]

/-- **C9.** Transposing a filled `SparseSkOp` twice returns an operator
equivalent to the original: same dimensions and distribution (hence the
same `vec_nnz` and `major_axis`), the `rows`/`cols`/`vals` references
restored to their original roles, and the same `seed_state` and
`next_state`. -/
theorem C9_transpose_round_trip (A V : Type) (S : SparseSkOp A V)
    (hf : S.known_filled = true) (h1 : 0 < S.dist.n_rows) (h2 : 0 < S.dist.n_cols)
    (h3 : 0 < S.dist.vec_nnz) (hr : S.n_rows = S.dist.n_rows)
    (hc : S.n_cols = S.dist.n_cols) :
    ∃ St Stt, transpose S = some St ∧ transpose St = some Stt
      ∧ Stt.n_rows = S.n_rows ∧ Stt.n_cols = S.n_cols ∧ Stt.dist = S.dist
      ∧ Stt.rows = S.rows ∧ Stt.cols = S.cols ∧ Stt.vals = S.vals
      ∧ Stt.seed_state = S.seed_state ∧ Stt.next_state = S.next_state := by
  have hTS : transpose S = some ⟨S.dist.n_cols, S.dist.n_rows,
      ⟨S.dist.n_cols, S.dist.n_rows, S.dist.vec_nnz, S.dist.major_axis⟩,
      S.seed_state, S.next_state, false, true, S.cols, S.rows, S.vals⟩ := by
    unfold transpose mkSparseSkOpBuffers
    rw [if_pos hf, if_pos ⟨h2, h1, h3⟩]
  have hTT : transpose (⟨S.dist.n_cols, S.dist.n_rows,
      ⟨S.dist.n_cols, S.dist.n_rows, S.dist.vec_nnz, S.dist.major_axis⟩,
      S.seed_state, S.next_state, false, true, S.cols, S.rows, S.vals⟩ : SparseSkOp A V)
      = some ⟨S.dist.n_rows, S.dist.n_cols,
        ⟨S.dist.n_rows, S.dist.n_cols, S.dist.vec_nnz, S.dist.major_axis⟩,
        S.seed_state, S.next_state, false, true, S.rows, S.cols, S.vals⟩ := by
    unfold transpose mkSparseSkOpBuffers
    rw [if_pos rfl, if_pos ⟨h1, h2, h3⟩]
  exact ⟨_, _, hTS, hTT, hr.symm, hc.symm, rfl, rfl, rfl, rfl, rfl, rfl⟩

/-- Witness for C9 at the concrete filled operator `exSpC9`. -/
theorem C9_witness :
    (exSpC9.known_filled = true ∧ 0 < exSpC9.dist.n_rows ∧ 0 < exSpC9.dist.n_cols
      ∧ 0 < exSpC9.dist.vec_nnz ∧ exSpC9.n_rows = exSpC9.dist.n_rows
      ∧ exSpC9.n_cols = exSpC9.dist.n_cols)
    ∧ ((transpose exSpC9).bind transpose).map SparseSkOp.rows = some exSpC9.rows := by
  refine ⟨⟨by decide, by decide, by decide, by decide, by decide, by decide⟩, ?_⟩
  obtain ⟨St, Stt, hA, hB, _, _, _, hrows, _⟩ := C9_transpose_round_trip Nat Nat exSpC9
    (by decide) (by decide) (by decide) (by decide) (by decide) (by decide)
  rw [hA, Option.some_bind, hB]
  simp [hrows]

/-- **C10.** The six-argument shallow-copy constructor always leaves
`known_filled = false`, whatever the supplied arrays: its body
self-assigns the member, which was default-initialized to `false`. -/
theorem C10_shallow_ctor_known_filled (A V : Type) (dist : SparseDist)
    (seed nst : RNGStateM) (rows cols : A) (vals : V) (S : SparseSkOp A V)
    (h : mkSparseSkOpShallow dist seed rows cols vals nst = some S) :
    S.known_filled = false := by
  unfold mkSparseSkOpShallow at h
  split at h
  · have hS := Option.some.inj h
    subst hS
    rfl
  · exact absurd h (by simp)

/-- Witness for C10 at a concrete shallow-copy construction. -/
theorem C10_witness :
    mkSparseSkOpShallow ⟨2, 3, 1, MajorAxis.Short⟩ ⟨0, 1⟩ (10 : Nat) (11 : Nat)
        (12 : Nat) ⟨5, 6⟩
      = some ((mkSparseSkOpShallow ⟨2, 3, 1, MajorAxis.Short⟩ ⟨0, 1⟩ (10 : Nat) (11 : Nat)
        (12 : Nat) ⟨5, 6⟩).iget)
    ∧ ((mkSparseSkOpShallow ⟨2, 3, 1, MajorAxis.Short⟩ ⟨0, 1⟩ (10 : Nat) (11 : Nat)
        (12 : Nat) ⟨5, 6⟩).iget).known_filled = false :=
  ⟨by decide,
    C10_shallow_ctor_known_filled Nat Nat ⟨2, 3, 1, MajorAxis.Short⟩ ⟨0, 1⟩ ⟨5, 6⟩ 10 11 12
      ((mkSparseSkOpShallow ⟨2, 3, 1, MajorAxis.Short⟩ ⟨0, 1⟩ (10 : Nat) (11 : Nat)
        (12 : Nat) ⟨5, 6⟩).iget) (by decide)⟩

end DenseFill

end RandBLAS
